import Mathlib

/-!
# fls: format/sort directive compilation and the unsorted directory walk

A shallow embedding of `src/fls/fls.cpp`.

* The process-wide `options` object becomes an explicit `Options` value that
  every function receives and (when it mutates it) returns.
* `throw Option_Error()` becomes `Except.error Option_Error.mk`.
* `std::string` is a byte string; it is embedded as a Lean `String` and read
  through its character list, a byte `b` being the character of code point `b`.
  Every byte the `switch` of `set_stats` names is ASCII, and every other byte,
  like every other character, takes `default:`.
* An iterator loop over `[it, end)` becomes a recursion over the characters
  that remain.
* The file system below the root is a finite tree (`Node`, `Directory`);
  the standard output and error streams and the directory opens are recorded
  as a list of `Event`s in program order. Each of the three calls inside the
  `try` of `list_content_unsorted` may throw `filesystem_error`: the open
  (`Directory.denied`), the status query `is_directory` (`Node.broken`) and
  the increment `dir++` (`Directory.interrupted`).
* `int sublevels` is an unbounded `Int`. A decrement leaves the range of `int`
  only from `INT_MIN`, where the usual wrap-around gives a non-zero value too.
* `main` starts from the parsed command line (`CommandLine`): what
  `program_options` does with `argv` is outside the embedding.
-/

namespace Fls

/-! ## Options (fls.cpp 7-64) -/

/-- The exception type `struct Option_Error`. It carries no data. -/
inductive Option_Error : Type
  | mk : Option_Error
deriving DecidableEq, Repr

/-- The nested `struct Options::Stat`; the defaults are its constructor's initialisers. -/
structure Options.Stat where
  user : Bool := false
  uid : Bool := false
  group : Bool := false
  gid : Bool := false
  size : Bool := false
  perm : Bool := false
  inode : Bool := false
  hardlinks : Bool := false
  atime : Bool := false
  mtime : Bool := false
  ctime : Bool := false
deriving DecidableEq, Repr

/-- The `struct Options`; the defaults are the initialisers of `Options::Options()`. -/
structure Options where
  quiet : Bool := false
  max_depth : Int := -1
  format : String := "%p %l %u %g %h %M %N"
  sorted : Bool := false
  sort : String := ""
  exclude : String := ""
  stat : Options.Stat := {}
deriving DecidableEq, Repr

/-! ## set_stats, read_sort, read_format (fls.cpp 66-159) -/

/-- The function `set_stats`: the `switch` over the directive code. The four codes of the
first group `break` without touching `options`; `default:` throws. -/
def set_stats (c : Char) (options : Options) : Except Option_Error Options :=
  match c with
  | 'n' | 'b' | 'e' | 'E' => .ok options
  | 's' => .ok { options with stat := { options.stat with size := true } }
  | 'u' => .ok { options with stat := { options.stat with user := true } }
  | 'U' => .ok { options with stat := { options.stat with uid := true } }
  | 'g' => .ok { options with stat := { options.stat with group := true } }
  | 'G' => .ok { options with stat := { options.stat with gid := true } }
  | 'p' | 'P' => .ok { options with stat := { options.stat with perm := true } }
  | 'i' => .ok { options with stat := { options.stat with inode := true } }
  | 'l' => .ok { options with stat := { options.stat with hardlinks := true } }
  | 'a' | 'A' => .ok { options with stat := { options.stat with atime := true } }
  | 'm' | 'M' => .ok { options with stat := { options.stat with mtime := true } }
  | 'c' | 'C' => .ok { options with stat := { options.stat with ctime := true } }
  | _ => .error Option_Error.mk

/-- The loop of `read_sort` from iterator position `it` on: `set_stats(*it)` for every
remaining character; an exception leaves the loop at once. -/
def read_sort_from : List Char → Options → Except Option_Error Options
  | [], options => .ok options
  | c :: rest, options =>
    match set_stats c options with
    | .ok options => read_sort_from rest options
    | .error e => .error e

/-- The function `read_sort`: the loop over `options.sort`. -/
def read_sort (options : Options) : Except Option_Error Options :=
  read_sort_from options.sort.data options

/-- The loop of `read_format` from iterator position `it` on. At a `'%'` the iterator is
advanced (`++it`): at the end of the string the function throws, otherwise the character
there goes to `set_stats` and the loop's own `it++` steps past it. Any other character
is skipped. -/
def read_format_from : List Char → Options → Except Option_Error Options
  | [], options => .ok options
  | c :: rest, options =>
    if c = '%' then
      match rest with
      | [] => .error Option_Error.mk
      | d :: rest =>
        match set_stats d options with
        | .ok options => read_format_from rest options
        | .error e => .error e
    else read_format_from rest options

/-- The function `read_format`: the loop over `options.format`. -/
def read_format (options : Options) : Except Option_Error Options :=
  read_format_from options.format.data options

/-! ## The file system and the output streams -/

/-- A `filesystem::path`, as its sequence of components; `p / name` is `p ++ [name]`. -/
abbrev Path := List String

mutual
/-- One directory entry, as `directory_iterator` yields it: `dir` when
`filesystem::is_directory` holds for it, `broken` when that status query throws
`filesystem_error` (a symbolic link that loops, an entry that may not be searched),
`file` for every other entry. -/
inductive Node : Type
  | file (name : String) : Node
  | dir (name : String) (d : Directory) : Node
  | broken (name : String) : Node
/-- What iterating over a directory gives: constructing `directory_iterator(p)` throws
`filesystem_error` (`denied`); or the iterator yields the entries in the order the file
system enumerates them and reaches the end (`listing`); or it yields these entries and
the increment after the last one throws `filesystem_error` (`interrupted`). -/
inductive Directory : Type
  | denied : Directory
  | listing (entries : List Node) : Directory
  | interrupted (entries : List Node) : Directory
end

/-- The name of an entry (the last component of `dir->path()`). -/
def Node.name : Node → String
  | .file name => name
  | .dir name _ => name
  | .broken name => name

/-- What the program does to the outside, in program order. -/
inductive Event : Type
  | usage : Event
  | sorted_check : Event
  | display (p : Path) : Event
  | opendir (p : Path) : Event
  | permission_denied (p : Path) : Event
  | what : Event
deriving DecidableEq, Repr

/-! ## list_content_unsorted (fls.cpp 161-184) -/

/-- The function `display_path`: one line with the path on the standard output. -/
def display_path (path : Path) : List Event := [Event.display path]

/-- The `catch` block of `list_content_unsorted`: the diagnostic for `p`, the directory
the function was called on, unless `options.quiet`. The function returns normally. -/
def caught (options : Options) (p : Path) : List Event :=
  if ¬ options.quiet then [Event.permission_denied p] else []

mutual
/-- The function `list_content_unsorted`. Constructing `directory_iterator dir(p)` is the
open; a `filesystem_error` from it, or from the loop, ends in the `catch` block. -/
def list_content_unsorted (options : Options) (p : Path) (d : Directory) (sublevels : Int) :
    List Event :=
  match d with
  | .denied => Event.opendir p :: caught options p
  | .listing entries =>
    Event.opendir p :: list_content_unsorted_loop options p entries true sublevels
  | .interrupted entries =>
    Event.opendir p :: list_content_unsorted_loop options p entries false sublevels
/-- The `for` loop of `list_content_unsorted` over the entries still to come, up to the
end of the function. The entry is displayed first; then `is_directory` is asked, and when
it throws the `catch` block runs and the entries after it are never reached; for a
directory with `sublevels` non-zero the function recurses with `sublevels - 1` (the
recursive call catches its own errors and returns normally). After the last entry the
loop ends, or the increment throws (`complete` false) and the `catch` block runs. -/
def list_content_unsorted_loop (options : Options) (p : Path) (entries : List Node)
    (complete : Bool) (sublevels : Int) : List Event :=
  match entries with
  | [] => if complete then [] else caught options p
  | .file name :: rest =>
    display_path (p ++ [name]) ++ list_content_unsorted_loop options p rest complete sublevels
  | .broken name :: _ => display_path (p ++ [name]) ++ caught options p
  | .dir name d :: rest =>
    display_path (p ++ [name]) ++
      ((if sublevels ≠ 0 then list_content_unsorted options (p ++ [name]) d (sublevels - 1)
        else []) ++
        list_content_unsorted_loop options p rest complete sublevels)
end

/-! ## main (fls.cpp 186-284) -/

/-- The parsed command line: what `variables_map vm` counts for the flags and the values
the options carry when given. -/
structure CommandLine where
  help : Bool := false
  format : Option String := none
  sort : Option String := none
  reverse : Bool := false
  max_depth : Option Int := none
  exclude : Option String := none
  quiet : Bool := false
  file : Option Path := none

/-- What the status query of the root path gives: a regular file, a directory, anything
else (a missing path included), or a `filesystem_error`. -/
inductive FileStatus : Type
  | regular : FileStatus
  | directory (d : Directory) : FileStatus
  | other : FileStatus
  | status_error : FileStatus

/-- The effect of `store` and `notify`: each option given overwrites the member of the
default-constructed `options` it is bound to. -/
def notify (cl : CommandLine) : Options :=
  { format := cl.format.getD ({} : Options).format
    sort := cl.sort.getD ({} : Options).sort
    max_depth := cl.max_depth.getD ({} : Options).max_depth
    exclude := cl.exclude.getD ({} : Options).exclude }

/-- The function `main` from the parsed command line on: exit status and events. Every
exception ends in the `catch` that writes `e.what()` and returns 1. -/
def main (cl : CommandLine) (fs : Path → FileStatus) : Int × List Event :=
  let options := notify cl
  if cl.help then (1, [Event.usage])
  else
    let options := if cl.quiet then { options with quiet := true } else options
    let options := if cl.sort.isSome then { options with sorted := true } else options
    match read_sort options with
    | .error _ => (1, [Event.what])
    | .ok options =>
      match read_format options with
      | .error _ => (1, [Event.what])
      | .ok options =>
        if cl.sort.isSome then (0, [Event.sorted_check])
        else
          match cl.file with
          | none => (1, [Event.what])
          | some p =>
            match fs p with
            | .regular => (0, display_path p)
            | .directory d => (0, list_content_unsorted options p d options.max_depth)
            | .other => (1, [])
            | .status_error => (1, [Event.what])

/-! ## Vocabulary of the specification -/

/-- The codes `set_stats` has a `case` for. -/
def accepted : List Char :=
  ['n', 'b', 'e', 'E', 's', 'u', 'U', 'g', 'G', 'p', 'P', 'i', 'l', 'a', 'A', 'm', 'M', 'c', 'C']

/-- The directive alphabet the specification documents for format strings. -/
def formatAlphabet : List Char :=
  ['n', 'N', 'b', 'B', 's', 'h', 'u', 'U', 'g', 'G', 'p', 'P', 'i', 'l', 'e', 'E', 'a', 'A',
   'm', 'M', 'c', 'C', 'F', '_', '%']

/-- The comparable sort-key alphabet of the specification: the format alphabet without
`F`, `_` and `%`. -/
def sortAlphabet : List Char :=
  ['n', 'N', 'b', 'B', 's', 'h', 'u', 'U', 'g', 'G', 'p', 'P', 'i', 'l', 'e', 'E', 'a', 'A',
   'm', 'M', 'c', 'C']

/-- The directive codes of a format string: the characters standing right after a `'%'`
that opens a directive, in order. -/
def directiveCodes : List Char → List Char
  | [] => []
  | c :: rest =>
    if c = '%' then
      match rest with
      | [] => []
      | d :: rest => d :: directiveCodes rest
    else directiveCodes rest

/-- Whether the last character of a format string is a `'%'` that opens a directive. -/
def truncated : List Char → Bool
  | [] => false
  | c :: rest =>
    if c = '%' then
      match rest with
      | [] => true
      | _ :: rest => truncated rest
    else truncated rest

/-- The stat flags a list of codes maps to: `s` size, `u` user, `U` uid, `g` group, `G` gid,
`p`/`P` perm, `i` inode, `l` hardlinks, `a`/`A` atime, `m`/`M` mtime, `c`/`C` ctime. -/
def statsOf (cs : List Char) : Options.Stat :=
  { user := decide ('u' ∈ cs)
    uid := decide ('U' ∈ cs)
    group := decide ('g' ∈ cs)
    gid := decide ('G' ∈ cs)
    size := decide ('s' ∈ cs)
    perm := decide ('p' ∈ cs ∨ 'P' ∈ cs)
    inode := decide ('i' ∈ cs)
    hardlinks := decide ('l' ∈ cs)
    atime := decide ('a' ∈ cs ∨ 'A' ∈ cs)
    mtime := decide ('m' ∈ cs ∨ 'M' ∈ cs)
    ctime := decide ('c' ∈ cs ∨ 'C' ∈ cs) }

/-- Flag-wise union of two stat sets. -/
def Options.Stat.union (a b : Options.Stat) : Options.Stat :=
  { user := a.user || b.user
    uid := a.uid || b.uid
    group := a.group || b.group
    gid := a.gid || b.gid
    size := a.size || b.size
    perm := a.perm || b.perm
    inode := a.inode || b.inode
    hardlinks := a.hardlinks || b.hardlinks
    atime := a.atime || b.atime
    mtime := a.mtime || b.mtime
    ctime := a.ctime || b.ctime }

/-- The paths a trace displays, in order. -/
def displays : List Event → List Path
  | [] => []
  | .display p :: rest => p :: displays rest
  | _ :: rest => displays rest

mutual
/-- Depth-first pre-order of the entries of a directory listing, each with its level
(`k` for the entries of the listing itself): an entry, then everything below it when it
is a directory, then the entries after it. -/
def preorder (k : Nat) (p : Path) : List Node → List (Nat × Path)
  | [] => []
  | .file name :: rest => (k, p ++ [name]) :: preorder k p rest
  | .broken name :: rest => (k, p ++ [name]) :: preorder k p rest
  | .dir name d :: rest =>
    (k, p ++ [name]) :: (Directory.preorder (k + 1) (p ++ [name]) d ++ preorder k p rest)
/-- Pre-order of everything below a directory; nothing is known below a `denied` one. -/
def Directory.preorder (k : Nat) (p : Path) : Directory → List (Nat × Path)
  | .denied => []
  | .listing entries => Fls.preorder k p entries
  | .interrupted entries => Fls.preorder k p entries
end

mutual
/-- Every directory among the entries, at any depth, is readable. -/
def allReadable : List Node → Bool
  | [] => true
  | .file _ :: rest => allReadable rest
  | .broken _ :: rest => allReadable rest
  | .dir _ d :: rest => Directory.readable d && allReadable rest
/-- The directory and every directory below it is readable: it can be opened and
enumerated to the end. -/
def Directory.readable : Directory → Bool
  | .denied => false
  | .listing entries => allReadable entries
  | .interrupted _ => false
end

mutual
/-- Every entry, at any depth, answers the status query: none is `broken`. -/
def allAnswer : List Node → Bool
  | [] => true
  | .file _ :: rest => allAnswer rest
  | .broken _ :: _ => false
  | .dir _ d :: rest => Directory.answers d && allAnswer rest
/-- Every entry below the directory, at any depth, answers the status query. -/
def Directory.answers : Directory → Bool
  | .denied => true
  | .listing entries => allAnswer entries
  | .interrupted entries => allAnswer entries
end

mutual
/-- The number of entries, at any depth, below a listing. -/
def countEntries : List Node → Nat
  | [] => 0
  | .file _ :: rest => 1 + countEntries rest
  | .broken _ :: rest => 1 + countEntries rest
  | .dir _ d :: rest => 1 + Directory.count d + countEntries rest
/-- The number of entries, at any depth, below a directory. -/
def Directory.count : Directory → Nat
  | .denied => 0
  | .listing entries => countEntries entries
  | .interrupted entries => countEntries entries
end

mutual
/-- No two entries of one directory share a name, at every depth. -/
def distinctNames : List Node → Bool
  | [] => true
  | .file name :: rest => decide (name ∉ rest.map Node.name) && distinctNames rest
  | .broken name :: rest => decide (name ∉ rest.map Node.name) && distinctNames rest
  | .dir name d :: rest =>
    decide (name ∉ rest.map Node.name) && Directory.distinctNames d && distinctNames rest
/-- No two entries of one directory share a name, in the directory and below it. -/
def Directory.distinctNames : Directory → Bool
  | .denied => true
  | .listing entries => Fls.distinctNames entries
  | .interrupted entries => Fls.distinctNames entries
end

/-- The entries the iterator over a directory yields. -/
def Directory.entries : Directory → List Node
  | .denied => []
  | .listing entries => entries
  | .interrupted entries => entries

/-- Whether the iterator over a directory reaches the end without throwing. -/
def Directory.complete : Directory → Bool
  | .interrupted _ => false
  | _ => true

/-- The directory with its entry number `i` replaced. -/
def Directory.setEntry (d : Directory) (i : Nat) (n : Node) : Directory :=
  match d with
  | .denied => .denied
  | .listing entries => .listing (entries.set i n)
  | .interrupted entries => .interrupted (entries.set i n)

/-- Whether the status query of the entry throws. -/
def Node.isBroken : Node → Bool
  | .broken _ => true
  | _ => false

/-- The path of the subdirectory at position `pos` below directory `d` at path `p`, when
that subdirectory cannot be opened. A position is the list of the indices to follow: the
entry number in `d`, then in that subdirectory, and so on; `[]` is `d` itself. -/
def deniedAt (p : Path) (d : Directory) : List Nat → Option Path
  | [] =>
    match d with
    | .denied => some p
    | _ => none
  | i :: pos =>
    match d.entries.get? i with
    | some (.dir name sub) => deniedAt (p ++ [name]) sub pos
    | _ => none

/-- The same tree with the directory at position `pos` empty (and readable) when it could
not be opened. -/
def madeEmpty (d : Directory) : List Nat → Directory
  | [] =>
    match d with
    | .denied => .listing []
    | d => d
  | i :: pos =>
    match d.entries.get? i with
    | some (.dir name sub) => d.setEntry i (.dir name (madeEmpty sub pos))
    | _ => d

/-- On the way to position `pos`, no entry enumerated before the one to follow is
`broken`: in each directory on the way, the entries before the index taken all answer
the status query. -/
def noFailureBefore (d : Directory) : List Nat → Bool
  | [] => true
  | i :: pos =>
    (d.entries.take i).all (fun n => !n.isBroken) &&
      match d.entries.get? i with
      | some (.dir _ sub) => noFailureBefore sub pos
      | _ => true

instance instDecidableEqExcept {ε α : Type} [DecidableEq ε] [DecidableEq α] :
    DecidableEq (Except ε α)
  | .ok a, .ok b =>
    if h : a = b then isTrue (by rw [h]) else isFalse (fun h' => h (Except.ok.inj h'))
  | .error a, .error b =>
    if h : a = b then isTrue (by rw [h]) else isFalse (fun h' => h (Except.error.inj h'))
  | .ok _, .error _ => isFalse (fun h => by cases h)
  | .error _, .ok _ => isFalse (fun h => by cases h)

/-! ## Sample inputs -/

/-- A readable tree: `a/` holding `x` and `b/` (holding `y`), then the file `c`. -/
def sampleTree : Directory :=
  .listing [.dir "a" (.listing [.file "x", .dir "b" (.listing [.file "y"])]), .file "c"]

/-- A tree with an unreadable directory `locked/` inside `a/`, between `x` and `y`. -/
def lockedTree : Directory :=
  .listing [.dir "a" (.listing [.file "x", .dir "locked" .denied, .file "y"]), .file "c"]

/-- A readable root holding `a/` (holding `x`), then `loop`, a symbolic link to itself
(its status query throws), then the file `z`. -/
def loopTree : Directory :=
  .listing [.dir "a" (.listing [.file "x"]), .broken "loop", .file "z"]

/-! ## Directive lookup -/

theorem set_stats_of_not_accepted (c : Char) (o : Options) (h : c ∉ accepted) :
    set_stats c o = .error .mk := by
  simp [accepted] at h
  unfold set_stats
  split <;> simp_all

theorem set_stats_of_accepted (c : Char) (o : Options) (h : c ∈ accepted) :
    set_stats c o = .ok { o with stat := o.stat.union (statsOf [c]) } := by
  simp [accepted] at h
  rcases h with h | h | h | h | h | h | h | h | h | h | h | h | h | h | h | h | h | h | h <;>
    subst h <;> simp [set_stats, Options.Stat.union, statsOf]

theorem union_assoc (a b c : Options.Stat) : (a.union b).union c = a.union (b.union c) := by
  simp [Options.Stat.union, Bool.or_assoc]

theorem union_nil (a : Options.Stat) : a.union (statsOf []) = a := by
  simp [Options.Stat.union, statsOf]

theorem statsOf_append (a b : List Char) : statsOf (a ++ b) = (statsOf a).union (statsOf b) := by
  simp [Options.Stat.union, statsOf, Bool.decide_or, Bool.or_assoc, Bool.or_left_comm]

theorem statsOf_cons (c : Char) (cs : List Char) :
    statsOf (c :: cs) = (statsOf [c]).union (statsOf cs) := statsOf_append [c] cs

theorem read_sort_from_eq (cs : List Char) (o : Options) :
    read_sort_from cs o =
      if ∀ c ∈ cs, c ∈ accepted then .ok { o with stat := o.stat.union (statsOf cs) }
      else .error .mk := by
  induction cs generalizing o with
  | nil => simp [read_sort_from, union_nil]
  | cons c cs ih =>
    by_cases hc : c ∈ accepted
    · simp only [read_sort_from, set_stats_of_accepted c o hc, ih, List.mem_cons, forall_eq_or_imp, hc, true_and, statsOf_cons c cs, union_assoc]
    · simp [read_sort_from, set_stats_of_not_accepted c o hc, hc]

theorem read_format_from_eq : ∀ (cs : List Char) (o : Options),
    read_format_from cs o =
      if truncated cs = false ∧ ∀ c ∈ directiveCodes cs, c ∈ accepted then
        .ok { o with stat := o.stat.union (statsOf (directiveCodes cs)) }
      else .error .mk
  | [], o => by simp [read_format_from, truncated, directiveCodes, union_nil]
  | [c], o => by
    by_cases hc : c = '%'
    · simp [read_format_from, truncated, directiveCodes, hc]
    · simp [read_format_from, truncated, directiveCodes, hc, union_nil]
  | c :: d :: rest, o => by
    by_cases hc : c = '%'
    · by_cases hd : d ∈ accepted
      · simp only [read_format_from, truncated, directiveCodes, hc, if_true, set_stats_of_accepted d o hd, read_format_from_eq rest, List.mem_cons, forall_eq_or_imp, hd, true_and, statsOf_cons d (directiveCodes rest), union_assoc]
      · simp [read_format_from, truncated, directiveCodes, hc, set_stats_of_not_accepted d o hd, hd]
    · simp only [read_format_from, truncated, directiveCodes, hc, if_false, read_format_from_eq (d :: rest)]

theorem accepted_sub_sortAlphabet (c : Char) (h : c ∈ accepted) : c ∈ sortAlphabet := by
  simp [accepted] at h
  rcases h with h | h | h | h | h | h | h | h | h | h | h | h | h | h | h | h | h | h | h <;>
    subst h <;> decide

theorem read_sort_eq (o : Options) :
    read_sort o =
      if ∀ c ∈ o.sort.data, c ∈ accepted then
        .ok { o with stat := o.stat.union (statsOf o.sort.data) }
      else .error .mk := read_sort_from_eq _ _

theorem read_format_eq (o : Options) :
    read_format o =
      if truncated o.format.data = false ∧ ∀ c ∈ directiveCodes o.format.data, c ∈ accepted then
        .ok { o with stat := o.stat.union (statsOf (directiveCodes o.format.data)) }
      else .error .mk := read_format_from_eq _ _

theorem trailing_percent : ∀ (cs : List Char), cs.getLast? = some '%' →
    truncated cs = true ∨ '%' ∈ directiveCodes cs
  | [], h => by simp at h
  | [c], h => by
    simp at h
    simp [truncated, h]
  | [c, d], h => by
    simp at h
    by_cases hc : c = '%'
    · simp [directiveCodes, hc, h]
    · have := trailing_percent [d] (by simp [h])
      simpa [truncated, directiveCodes, hc] using this
  | c :: d :: e :: rest, h => by
    by_cases hc : c = '%'
    · have := trailing_percent (e :: rest) (by simpa [List.getLast?_cons_cons] using h)
      rcases this with h1 | h1
      · left; simpa [truncated, hc] using h1
      · right; simp [directiveCodes, hc]; right; exact h1
    · have := trailing_percent (d :: e :: rest) (by simpa [List.getLast?_cons_cons] using h)
      simpa [truncated, directiveCodes, hc] using this

/-- C2: a format string whose last character is `'%'` never compiles: `read_format`
throws `Option_Error`, whatever stands before that `'%'` and whatever the options are. -/
theorem read_format_trailing_percent (o : Options)
    (h : o.format.data.getLast? = some '%') : read_format o = .error Option_Error.mk := by
  rw [read_format_eq]
  rcases trailing_percent _ h with h1 | h1
  · simp [h1]
  · have : ¬ ∀ c ∈ directiveCodes o.format.data, c ∈ accepted := fun hall =>
      absurd (hall _ h1) (by decide)
    simp [this]

theorem read_format_trailing_percent_witness :
    ({ format := "%s: 100%%" } : Options).format.data.getLast? = some '%' ∧
      read_format { format := "%s: 100%%" } = .error Option_Error.mk :=
  ⟨by decide, read_format_trailing_percent { format := "%s: 100%%" } (by decide)⟩

/-- C3: a sort string with a character outside the comparable sort-key alphabet never
compiles: `read_sort` throws `Option_Error`, wherever that character stands. -/
theorem read_sort_outside_alphabet (o : Options)
    (h : ∃ c ∈ o.sort.data, c ∉ sortAlphabet) : read_sort o = .error Option_Error.mk := by
  obtain ⟨c, hc, hn⟩ := h
  rw [read_sort_eq]
  have : ¬ ∀ c ∈ o.sort.data, c ∈ accepted := fun hall =>
    hn (accepted_sub_sortAlphabet c (hall c hc))
  simp [this]

theorem read_sort_outside_alphabet_witness :
    (∃ c ∈ ({ sort := "sFn" } : Options).sort.data, c ∉ sortAlphabet) ∧
      read_sort { sort := "sFn" } = .error Option_Error.mk :=
  ⟨⟨'F', by decide, by decide⟩,
    read_sort_outside_alphabet { sort := "sFn" } ⟨'F', by decide, by decide⟩⟩

/-- C1 (the code departs from it): the built-in default format `"%p %l %u %g %h %M %N"`
does not compile, so that `main` without `-f` returns 1 with nothing listed; and among
the single-directive formats `"%c"` with `c` in the documented alphabet exactly those
with `c` one of `N B h F _ %` are rejected. -/
theorem documented_codes_rejected :
    read_format ({} : Options) = .error Option_Error.mk ∧
      (∀ (fs : Path → FileStatus) (p : Path),
        main { file := some p } fs = (1, [Event.what])) ∧
      ∀ c ∈ formatAlphabet, ∀ o : Options,
        (read_format { o with format := String.mk ['%', c] } = .error Option_Error.mk ↔
          c ∈ ['N', 'B', 'h', 'F', '_', '%']) := by
  refine ⟨by decide, fun fs p => rfl, ?_⟩
  intro c hc o
  rw [read_format_eq]
  simp only [truncated, directiveCodes, if_true, List.mem_singleton, forall_eq, true_and]
  simp [formatAlphabet] at hc
  rcases hc with h | h | h | h | h | h | h | h | h | h | h | h | h | h | h | h | h | h | h |
    h | h | h | h | h | h <;> subst h <;> simp [accepted]

/-! ## Required stats -/

theorem mem_statsOf (cs : List Char) :
    ((statsOf cs).size = true ↔ 's' ∈ cs) ∧
    ((statsOf cs).user = true ↔ 'u' ∈ cs) ∧
    ((statsOf cs).uid = true ↔ 'U' ∈ cs) ∧
    ((statsOf cs).group = true ↔ 'g' ∈ cs) ∧
    ((statsOf cs).gid = true ↔ 'G' ∈ cs) ∧
    ((statsOf cs).perm = true ↔ 'p' ∈ cs ∨ 'P' ∈ cs) ∧
    ((statsOf cs).inode = true ↔ 'i' ∈ cs) ∧
    ((statsOf cs).hardlinks = true ↔ 'l' ∈ cs) ∧
    ((statsOf cs).atime = true ↔ 'a' ∈ cs ∨ 'A' ∈ cs) ∧
    ((statsOf cs).mtime = true ↔ 'm' ∈ cs ∨ 'M' ∈ cs) ∧
    ((statsOf cs).ctime = true ↔ 'c' ∈ cs ∨ 'C' ∈ cs) := by
  simp [statsOf]

theorem empty_union (a : Options.Stat) : Options.Stat.union {} a = a := by
  simp [Options.Stat.union]

theorem union_absorb (a : Options.Stat) (xs ys : List Char) (h : ∀ c ∈ ys, c ∈ xs) :
    (a.union (statsOf xs)).union (statsOf ys) = a.union (statsOf xs) := by
  simp only [Options.Stat.union, statsOf, Options.Stat.mk.injEq]
  and_intros <;> (rw [Bool.eq_iff_iff]; simp only [Bool.or_eq_true, decide_eq_true_eq]) <;>
    constructor <;> intro h' <;> (try exact Or.inl h') <;> rcases h' with h' | h' <;>
    first | exact h' | (rcases h' with h' | h' <;> exact Or.inr (by first | exact Or.inl (h _ h') | exact Or.inr (h _ h'))) | exact Or.inr (h _ h')

theorem statsOf_perm {a b : List Char} (h : a.Perm b) : statsOf a = statsOf b := by
  simp [statsOf, h.mem_iff]

/-- The two compilations in sequence, when both succeed: the strings are untouched and
the stat set grows by the codes of the sort string and of the format directives. -/
theorem read_sort_read_format (o o1 o2 : Options) (h1 : read_sort o = .ok o1)
    (h2 : read_format o1 = .ok o2) :
    (∀ c ∈ o.sort.data, c ∈ accepted) ∧
      (truncated o.format.data = false ∧ ∀ c ∈ directiveCodes o.format.data, c ∈ accepted) ∧
      o2 = { o with stat := o.stat.union (statsOf (o.sort.data ++ directiveCodes o.format.data)) } := by
  rw [read_sort_eq] at h1
  split at h1
  · rename_i hs
    cases h1
    rw [read_format_eq] at h2
    split at h2
    · rename_i hf
      cases h2
      refine ⟨hs, hf, ?_⟩
      show ({ o with stat := ((o.stat.union (statsOf o.sort.data)).union
        (statsOf (directiveCodes o.format.data))) } : Options) = _
      rw [union_assoc, ← statsOf_append]
    · cases h2
  · cases h1

theorem directiveCodes_of_no_percent : ∀ cs : List Char, '%' ∉ cs → directiveCodes cs = []
  | [], _ => rfl
  | [c], h => by
    have hne : ¬ c = '%' := fun e => h (by simp [e])
    simp [directiveCodes, hne]
  | c :: d :: rest, h => by
    have hne : ¬ c = '%' := fun e => h (by simp [e])
    have := directiveCodes_of_no_percent (d :: rest) (fun hm => h (List.mem_cons_of_mem _ hm))
    simpa [directiveCodes, hne] using this

/-- C4: starting from the all-false `Options::Stat`, when `read_sort` and then
`read_format` succeed, a stat flag is set exactly when a sort character or a format
directive code maps to it (`s` size, `u` user, `U` uid, `g` group, `G` gid, `p`/`P` perm,
`i` inode, `l` hardlinks, `a`/`A` atime, `m`/`M` mtime, `c`/`C` ctime); with an empty sort
string and no `'%'` in the format no flag is set. -/
theorem required_stats_union (o o1 o2 : Options) (h0 : o.stat = {})
    (h1 : read_sort o = .ok o1) (h2 : read_format o1 = .ok o2) :
    (o2.stat.size = true ↔ 's' ∈ o.sort.data ++ directiveCodes o.format.data) ∧
    (o2.stat.user = true ↔ 'u' ∈ o.sort.data ++ directiveCodes o.format.data) ∧
    (o2.stat.uid = true ↔ 'U' ∈ o.sort.data ++ directiveCodes o.format.data) ∧
    (o2.stat.group = true ↔ 'g' ∈ o.sort.data ++ directiveCodes o.format.data) ∧
    (o2.stat.gid = true ↔ 'G' ∈ o.sort.data ++ directiveCodes o.format.data) ∧
    (o2.stat.perm = true ↔ 'p' ∈ o.sort.data ++ directiveCodes o.format.data ∨
      'P' ∈ o.sort.data ++ directiveCodes o.format.data) ∧
    (o2.stat.inode = true ↔ 'i' ∈ o.sort.data ++ directiveCodes o.format.data) ∧
    (o2.stat.hardlinks = true ↔ 'l' ∈ o.sort.data ++ directiveCodes o.format.data) ∧
    (o2.stat.atime = true ↔ 'a' ∈ o.sort.data ++ directiveCodes o.format.data ∨
      'A' ∈ o.sort.data ++ directiveCodes o.format.data) ∧
    (o2.stat.mtime = true ↔ 'm' ∈ o.sort.data ++ directiveCodes o.format.data ∨
      'M' ∈ o.sort.data ++ directiveCodes o.format.data) ∧
    (o2.stat.ctime = true ↔ 'c' ∈ o.sort.data ++ directiveCodes o.format.data ∨
      'C' ∈ o.sort.data ++ directiveCodes o.format.data) ∧
    (o.sort.data = [] → '%' ∉ o.format.data → o2.stat = {}) := by
  obtain ⟨-, -, h⟩ := read_sort_read_format o o1 o2 h1 h2
  have hstat : o2.stat = statsOf (o.sort.data ++ directiveCodes o.format.data) := by
    rw [h, h0]; exact empty_union _
  obtain ⟨m1, m2, m3, m4, m5, m6, m7, m8, m9, m10, m11⟩ :=
    mem_statsOf (o.sort.data ++ directiveCodes o.format.data)
  rw [hstat]
  refine ⟨m1, m2, m3, m4, m5, m6, m7, m8, m9, m10, m11, ?_⟩
  intro hs hf
  rw [hs, directiveCodes_of_no_percent _ hf]
  rfl

theorem required_stats_union_witness :
    (({ sort := "sn", format := "%p %l: %n%u" } : Options).stat = {} ∧
      read_sort { sort := "sn", format := "%p %l: %n%u" } =
        .ok { sort := "sn", format := "%p %l: %n%u", stat := { size := true } } ∧
      read_format { sort := "sn", format := "%p %l: %n%u", stat := { size := true } } =
        .ok { sort := "sn", format := "%p %l: %n%u",
              stat := { size := true, perm := true, hardlinks := true, user := true } }) ∧
    (({ sort := "sn", format := "%p %l: %n%u",
        stat := { size := true, perm := true, hardlinks := true, user := true } } :
        Options).stat.perm = true ↔
      'p' ∈ ({ sort := "sn", format := "%p %l: %n%u" } : Options).sort.data ++
          directiveCodes ({ sort := "sn", format := "%p %l: %n%u" } : Options).format.data ∨
        'P' ∈ ({ sort := "sn", format := "%p %l: %n%u" } : Options).sort.data ++
          directiveCodes ({ sort := "sn", format := "%p %l: %n%u" } : Options).format.data) :=
  ⟨⟨by decide, by decide, by decide⟩,
    (required_stats_union { sort := "sn", format := "%p %l: %n%u" }
      { sort := "sn", format := "%p %l: %n%u", stat := { size := true } }
      { sort := "sn", format := "%p %l: %n%u",
        stat := { size := true, perm := true, hardlinks := true, user := true } }
      (by decide) (by decide) (by decide)).2.2.2.2.2.1⟩

/-- C9: the stat set does not depend on the order of the codes and compiling twice adds
nothing. For two option sets with the same stat flags, sort strings that are permutations
of each other and format strings whose directive codes are permutations of each other,
`read_sort` then `read_format`, when they succeed on both, end in the same stat flags;
and `read_sort` then `read_format` once more on the result succeed and change nothing. -/
theorem resolve_order_independent (a a1 a2 b b1 b2 : Options) (hstat : a.stat = b.stat)
    (hsort : a.sort.data.Perm b.sort.data)
    (hfmt : (directiveCodes a.format.data).Perm (directiveCodes b.format.data))
    (ha1 : read_sort a = .ok a1) (ha2 : read_format a1 = .ok a2)
    (hb1 : read_sort b = .ok b1) (hb2 : read_format b1 = .ok b2) :
    a2.stat = b2.stat ∧
      ∃ a3 : Options, read_sort a2 = .ok a3 ∧ read_format a3 = .ok a2 ∧ a3.stat = a2.stat := by
  obtain ⟨hs, hf, ha⟩ := read_sort_read_format a a1 a2 ha1 ha2
  obtain ⟨-, -, hb⟩ := read_sort_read_format b b1 b2 hb1 hb2
  refine ⟨?_, a2, ?_, ?_, rfl⟩
  · rw [ha, hb]
    simp only [hstat, statsOf_perm (hsort.append hfmt)]
  · rw [read_sort_eq]
    have e1 : a2.sort = a.sort := by rw [ha]
    rw [e1, if_pos hs]
    congr 1
    conv_rhs => rw [ha]
    rw [ha]
    show ({ a with stat := ((a.stat.union
      (statsOf (a.sort.data ++ directiveCodes a.format.data))).union
        (statsOf a.sort.data)) } : Options) = _
    rw [union_absorb _ _ _ (fun c hc => List.mem_append_left _ hc)]
  · rw [read_format_eq]
    have e1 : a2.format = a.format := by rw [ha]
    rw [e1, if_pos hf]
    congr 1
    conv_rhs => rw [ha]
    rw [ha]
    show ({ a with stat := ((a.stat.union
      (statsOf (a.sort.data ++ directiveCodes a.format.data))).union
        (statsOf (directiveCodes a.format.data))) } : Options) = _
    rw [union_absorb _ _ _ (fun c hc => List.mem_append_right _ hc)]

theorem resolve_order_independent_witness :
    ({ sort := "su", format := "%p%l" } : Options).sort.data.Perm
        ({ sort := "us", format := "%l, %p" } : Options).sort.data ∧
      (directiveCodes ({ sort := "su", format := "%p%l" } : Options).format.data).Perm
        (directiveCodes ({ sort := "us", format := "%l, %p" } : Options).format.data) ∧
      ({ sort := "su", format := "%p%l",
         stat := { size := true, user := true, perm := true, hardlinks := true } } :
        Options).stat =
      ({ sort := "us", format := "%l, %p",
         stat := { size := true, user := true, perm := true, hardlinks := true } } :
        Options).stat ∧
      ∃ a3 : Options,
        read_sort { sort := "su", format := "%p%l",
                    stat := { size := true, user := true, perm := true, hardlinks := true } } =
          .ok a3 ∧
        read_format a3 =
          .ok { sort := "su", format := "%p%l",
                stat := { size := true, user := true, perm := true, hardlinks := true } } ∧
        a3.stat =
          ({ sort := "su", format := "%p%l",
             stat := { size := true, user := true, perm := true, hardlinks := true } } :
            Options).stat :=
  ⟨by decide, by decide,
    resolve_order_independent
      { sort := "su", format := "%p%l" }
      { sort := "su", format := "%p%l", stat := { size := true, user := true } }
      { sort := "su", format := "%p%l",
        stat := { size := true, user := true, perm := true, hardlinks := true } }
      { sort := "us", format := "%l, %p" }
      { sort := "us", format := "%l, %p", stat := { size := true, user := true } }
      { sort := "us", format := "%l, %p",
        stat := { size := true, user := true, perm := true, hardlinks := true } }
      (by decide) (by decide) (by decide) (by decide) (by decide) (by decide) (by decide)⟩

/-! ## main -/

/-- C8: when `read_sort` or `read_format` rejects the string the command line gives it
(or the default), `main` returns 1 and has displayed no entry, whatever the root path,
the file system and the other options are. -/
theorem malformed_is_fatal (cl : CommandLine) (fs : Path → FileStatus)
    (h : read_sort (notify cl) = .error Option_Error.mk ∨
      read_format (notify cl) = .error Option_Error.mk) :
    (main cl fs).1 = 1 ∧ displays (main cl fs).2 = [] := by
  unfold main
  by_cases hh : cl.help = true
  · simp [hh, displays]
  · simp only [hh, if_false, Bool.false_eq_true]
    generalize ho : (if cl.sort.isSome = true then
      { (if cl.quiet = true then { notify cl with quiet := true } else notify cl) with
        sorted := true }
      else (if cl.quiet = true then { notify cl with quiet := true } else notify cl)) = o
    have hsort : o.sort = (notify cl).sort := by
      subst ho; split <;> split <;> rfl
    have hfmt : o.format = (notify cl).format := by
      subst ho; split <;> split <;> rfl
    rw [read_sort_eq, read_format_eq] at h
    by_cases hs : ∀ c ∈ (notify cl).sort.data, c ∈ accepted
    · by_cases hf : truncated (notify cl).format.data = false ∧
          ∀ c ∈ directiveCodes (notify cl).format.data, c ∈ accepted
      · rw [if_pos hs, if_pos hf] at h
        simp at h
      · simp only [read_sort_eq, hsort, if_pos hs, read_format_eq, hfmt, if_neg hf]
        simp [displays]
    · simp only [read_sort_eq, hsort, if_neg hs]
      simp [displays]

theorem malformed_is_fatal_witness :
    (read_sort (notify { sort := some "F", format := some "%n", file := some ["r"] }) =
        .error Option_Error.mk ∨
      read_format (notify { sort := some "F", format := some "%n", file := some ["r"] }) =
        .error Option_Error.mk) ∧
    (main { sort := some "F", format := some "%n", file := some ["r"] }
        (fun _ => .directory (.listing [.file "a"]))).1 = 1 ∧
    displays (main { sort := some "F", format := some "%n", file := some ["r"] }
        (fun _ => .directory (.listing [.file "a"]))).2 = [] :=
  ⟨Or.inl (by decide),
    malformed_is_fatal { sort := some "F", format := some "%n", file := some ["r"] }
      (fun _ => .directory (.listing [.file "a"])) (Or.inl (by decide))⟩

/-! ## The walk -/

theorem displays_append (a b : List Event) : displays (a ++ b) = displays a ++ displays b := by
  induction a with
  | nil => rfl
  | cons e a ih => cases e <;> simp [displays, ih]

theorem displays_caught (o : Options) (p : Path) : displays (caught o p) = [] := by
  cases h : o.quiet <;> simp [caught, h, displays]

theorem loop_nil (o : Options) (p : Path) (c : Bool) (s : Int) :
    list_content_unsorted_loop o p [] c s = if c = true then [] else caught o p := by
  simp [list_content_unsorted_loop]

theorem loop_file (o : Options) (p : Path) (c : Bool) (s : Int) (name : String)
    (rest : List Node) :
    list_content_unsorted_loop o p (.file name :: rest) c s =
      Event.display (p ++ [name]) :: list_content_unsorted_loop o p rest c s := by
  simp [list_content_unsorted_loop, display_path]

theorem loop_broken (o : Options) (p : Path) (c : Bool) (s : Int) (name : String)
    (rest : List Node) :
    list_content_unsorted_loop o p (.broken name :: rest) c s =
      Event.display (p ++ [name]) :: caught o p := by
  simp [list_content_unsorted_loop, display_path]

theorem loop_dir (o : Options) (p : Path) (c : Bool) (s : Int) (name : String)
    (d : Directory) (rest : List Node) :
    list_content_unsorted_loop o p (.dir name d :: rest) c s =
      Event.display (p ++ [name]) ::
        ((if s ≠ 0 then list_content_unsorted o (p ++ [name]) d (s - 1) else []) ++
          list_content_unsorted_loop o p rest c s) := by
  simp [list_content_unsorted_loop, display_path]

theorem walk_denied (o : Options) (p : Path) (s : Int) :
    list_content_unsorted o p .denied s = Event.opendir p :: caught o p := by
  simp [list_content_unsorted]

theorem walk_listing (o : Options) (p : Path) (s : Int) (es : List Node) :
    list_content_unsorted o p (.listing es) s =
      Event.opendir p :: list_content_unsorted_loop o p es true s := by
  simp [list_content_unsorted]

theorem walk_interrupted (o : Options) (p : Path) (s : Int) (es : List Node) :
    list_content_unsorted o p (.interrupted es) s =
      Event.opendir p :: list_content_unsorted_loop o p es false s := by
  simp [list_content_unsorted]

theorem caught_congr (o o' : Options) (h : o.quiet = o'.quiet) (p : Path) :
    caught o p = caught o' p := by
  simp [caught, h]

mutual
theorem list_content_unsorted_congr (o o' : Options) (h : o.quiet = o'.quiet) (p : Path)
    (s : Int) : ∀ d : Directory, list_content_unsorted o p d s = list_content_unsorted o' p d s
  | .denied => by rw [walk_denied, walk_denied, caught_congr o o' h]
  | .listing es => by
    rw [walk_listing, walk_listing, list_content_unsorted_loop_congr o o' h p true s es]
  | .interrupted es => by
    rw [walk_interrupted, walk_interrupted,
      list_content_unsorted_loop_congr o o' h p false s es]
theorem list_content_unsorted_loop_congr (o o' : Options) (h : o.quiet = o'.quiet) (p : Path)
    (c : Bool) (s : Int) : ∀ es : List Node,
    list_content_unsorted_loop o p es c s = list_content_unsorted_loop o' p es c s
  | [] => by rw [loop_nil, loop_nil, caught_congr o o' h]
  | .file name :: rest => by
    rw [loop_file, loop_file, list_content_unsorted_loop_congr o o' h p c s rest]
  | .broken name :: rest => by
    rw [loop_broken, loop_broken, caught_congr o o' h]
  | .dir name d :: rest => by
    rw [loop_dir, loop_dir, list_content_unsorted_loop_congr o o' h p c s rest,
      list_content_unsorted_congr o o' h (p ++ [name]) (s - 1) d]
end

theorem quiet_caught (o : Options) (h : o.quiet = true) (p : Path) : caught o p = [] := by
  simp [caught, h]

mutual
theorem quiet_no_diagnostic (o : Options) (h : o.quiet = true) (p : Path) (s : Int)
    (x : Path) : ∀ d : Directory, Event.permission_denied x ∉ list_content_unsorted o p d s
  | .denied => by simp [walk_denied, quiet_caught o h]
  | .listing es => by
    simp only [walk_listing, List.mem_cons, not_or]
    exact ⟨by simp, quiet_no_diagnostic_loop o h p true s x es⟩
  | .interrupted es => by
    simp only [walk_interrupted, List.mem_cons, not_or]
    exact ⟨by simp, quiet_no_diagnostic_loop o h p false s x es⟩
theorem quiet_no_diagnostic_loop (o : Options) (h : o.quiet = true) (p : Path) (c : Bool)
    (s : Int) (x : Path) : ∀ es : List Node,
    Event.permission_denied x ∉ list_content_unsorted_loop o p es c s
  | [] => by cases c <;> simp [loop_nil, quiet_caught o h]
  | .file name :: rest => by
    simp only [loop_file, List.mem_cons, not_or]
    exact ⟨by simp, quiet_no_diagnostic_loop o h p c s x rest⟩
  | .broken name :: rest => by simp [loop_broken, quiet_caught o h]
  | .dir name d :: rest => by
    simp only [loop_dir, List.mem_cons, List.mem_append, not_or]
    refine ⟨by simp, ?_, quiet_no_diagnostic_loop o h p c s x rest⟩
    split
    · exact quiet_no_diagnostic o h (p ++ [name]) (s - 1) x d
    · simp
end

mutual
theorem level_le_preorder (k : Nat) (p : Path) :
    ∀ es : List Node, ∀ e ∈ preorder k p es, k ≤ e.1
  | [] => by simp [preorder]
  | .file name :: rest => by
    intro e he
    simp only [preorder, List.mem_cons] at he
    rcases he with rfl | he
    · exact le_refl _
    · exact level_le_preorder k p rest e he
  | .broken name :: rest => by
    intro e he
    simp only [preorder, List.mem_cons] at he
    rcases he with rfl | he
    · exact le_refl _
    · exact level_le_preorder k p rest e he
  | .dir name d :: rest => by
    intro e he
    simp only [preorder, List.mem_cons, List.mem_append] at he
    rcases he with rfl | he | he
    · exact le_refl _
    · exact Nat.le_of_succ_le (level_le_directory_preorder (k + 1) (p ++ [name]) d e he)
    · exact level_le_preorder k p rest e he
theorem level_le_directory_preorder (k : Nat) (p : Path) :
    ∀ d : Directory, ∀ e ∈ Directory.preorder k p d, k ≤ e.1
  | .denied => by simp [Directory.preorder]
  | .listing es => by
    intro e he
    simp only [Directory.preorder] at he
    exact level_le_preorder k p es e he
  | .interrupted es => by
    intro e he
    simp only [Directory.preorder] at he
    exact level_le_preorder k p es e he
end

mutual
theorem displays_unbounded (o : Options) (k : Nat) (p : Path) (s : Int) (hs : s < 0) :
    ∀ d : Directory, d.readable = true → d.answers = true →
      displays (list_content_unsorted o p d s) = (d.preorder k p).map Prod.snd
  | .denied => by simp [Directory.readable]
  | .interrupted es => by simp [Directory.readable]
  | .listing es => by
    intro hr ha
    simp only [Directory.readable] at hr
    simp only [Directory.answers] at ha
    simp only [walk_listing, displays, Directory.preorder]
    exact displays_unbounded_loop o k p true s hs es hr ha
theorem displays_unbounded_loop (o : Options) (k : Nat) (p : Path) (c : Bool) (s : Int)
    (hs : s < 0) :
    ∀ es : List Node, allReadable es = true → allAnswer es = true →
      displays (list_content_unsorted_loop o p es c s) = (preorder k p es).map Prod.snd
  | [] => by
    intro _ _
    rw [loop_nil]
    cases c <;> simp [displays, preorder, displays_caught]
  | .file name :: rest => by
    intro hr ha
    simp only [allReadable] at hr
    simp only [allAnswer] at ha
    rw [loop_file]
    simp only [displays, preorder, List.map_cons]
    rw [displays_unbounded_loop o k p c s hs rest hr ha]
  | .broken name :: rest => by simp [allAnswer]
  | .dir name d :: rest => by
    intro hr ha
    simp only [allReadable, Bool.and_eq_true] at hr
    simp only [allAnswer, Bool.and_eq_true] at ha
    have hne : s ≠ 0 := by omega
    rw [loop_dir, if_pos hne]
    simp only [displays, preorder, List.map_cons, List.map_append, displays_append]
    rw [displays_unbounded_loop o k p c s hs rest hr.2 ha.2,
      displays_unbounded o (k + 1) (p ++ [name]) (s - 1) (by omega) d hr.1 ha.1]
end

theorem filter_deeper_nil (k : Nat) (p : Path) (d : Directory) :
    (Directory.preorder (k + 1) p d).filter (fun e => decide ((e.1 : Int) ≤ (k : Int) + 0)) =
      [] := by
  rw [List.filter_eq_nil_iff]
  intro e he
  have := level_le_directory_preorder (k + 1) p d e he
  simp only [decide_eq_true_eq]
  omega

theorem level_shift (k : Nat) (s : Int) :
    (fun e : Nat × Path => decide ((e.1 : Int) ≤ ((k + 1 : Nat) : Int) + (s - 1))) =
      fun e => decide ((e.1 : Int) ≤ (k : Int) + s) := by
  funext e
  congr 1
  apply propext
  push_cast
  constructor <;> intro h <;> omega

mutual
theorem displays_bounded (o : Options) (k : Nat) (p : Path) (s : Int) (hs : 0 ≤ s) :
    ∀ d : Directory, d.readable = true → d.answers = true →
      displays (list_content_unsorted o p d s) =
        ((d.preorder k p).filter (fun e => decide ((e.1 : Int) ≤ (k : Int) + s))).map Prod.snd
  | .denied => by simp [Directory.readable]
  | .interrupted es => by simp [Directory.readable]
  | .listing es => by
    intro hr ha
    simp only [Directory.readable] at hr
    simp only [Directory.answers] at ha
    rw [walk_listing]
    simp only [displays, Directory.preorder]
    exact displays_bounded_loop o k p true s hs es hr ha
theorem displays_bounded_loop (o : Options) (k : Nat) (p : Path) (c : Bool) (s : Int)
    (hs : 0 ≤ s) :
    ∀ es : List Node, allReadable es = true → allAnswer es = true →
      displays (list_content_unsorted_loop o p es c s) =
        ((preorder k p es).filter (fun e => decide ((e.1 : Int) ≤ (k : Int) + s))).map Prod.snd
  | [] => by
    intro _ _
    rw [loop_nil]
    cases c <;> simp [displays, preorder, displays_caught]
  | .file name :: rest => by
    intro hr ha
    simp only [allReadable] at hr
    simp only [allAnswer] at ha
    have hk : (k : Int) ≤ (k : Int) + s := by omega
    rw [loop_file]
    simp only [displays, preorder, List.filter_cons, hk, decide_True, if_true, List.map_cons]
    rw [displays_bounded_loop o k p c s hs rest hr ha]
  | .broken name :: rest => by simp [allAnswer]
  | .dir name d :: rest => by
    intro hr ha
    simp only [allReadable, Bool.and_eq_true] at hr
    simp only [allAnswer, Bool.and_eq_true] at ha
    have hk : (k : Int) ≤ (k : Int) + s := by omega
    rw [loop_dir]
    by_cases h0 : s = 0
    · subst h0
      rw [if_neg (by simp)]
      simp only [displays, preorder, List.filter_cons, hk, decide_True, if_true, List.map_cons,
        List.filter_append, filter_deeper_nil, List.nil_append, displays_append]
      rw [displays_bounded_loop o k p c 0 hs rest hr.2 ha.2]
    · rw [if_pos h0]
      simp only [displays, preorder, List.filter_cons, hk, decide_True, if_true, List.map_cons,
        List.filter_append, List.map_append, displays_append]
      rw [displays_bounded_loop o k p c s hs rest hr.2 ha.2,
        displays_bounded o (k + 1) (p ++ [name]) (s - 1) (by omega) d hr.1 ha.1, level_shift]
end

theorem displays_depth_zero (o : Options) (p : Path) (c : Bool) :
    ∀ es : List Node, allAnswer es = true →
      displays (list_content_unsorted_loop o p es c 0) = es.map (fun n => p ++ [n.name])
  | [] => by
    intro _
    rw [loop_nil]
    cases c <;> simp [displays, displays_caught]
  | .file name :: rest => by
    intro ha
    simp only [allAnswer] at ha
    rw [loop_file]
    simp only [displays, List.map_cons]
    rw [displays_depth_zero o p c rest ha]
    rfl
  | .broken name :: rest => by simp [allAnswer]
  | .dir name d :: rest => by
    intro ha
    simp only [allAnswer, Bool.and_eq_true] at ha
    rw [loop_dir, if_neg (by simp)]
    simp only [displays, List.map_cons, List.nil_append]
    rw [displays_depth_zero o p c rest ha.2]
    rfl

mutual
theorem length_preorder (k : Nat) (p : Path) :
    ∀ es : List Node, (preorder k p es).length = countEntries es
  | [] => by simp [preorder, countEntries]
  | .file name :: rest => by
    simp only [preorder, countEntries, List.length_cons]
    rw [length_preorder k p rest]
    omega
  | .broken name :: rest => by
    simp only [preorder, countEntries, List.length_cons]
    rw [length_preorder k p rest]
    omega
  | .dir name d :: rest => by
    simp only [preorder, countEntries, List.length_cons, List.length_append]
    rw [length_preorder k p rest, length_directory_preorder (k + 1) (p ++ [name]) d]
    omega
theorem length_directory_preorder (k : Nat) (p : Path) :
    ∀ d : Directory, (Directory.preorder k p d).length = d.count
  | .denied => by simp [Directory.preorder, Directory.count]
  | .listing es => by
    simp only [Directory.preorder, Directory.count]
    exact length_preorder k p es
  | .interrupted es => by
    simp only [Directory.preorder, Directory.count]
    exact length_preorder k p es
end

mutual
theorem preorder_paths (k : Nat) (p : Path) :
    ∀ es : List Node, ∀ e ∈ preorder k p es,
      ∃ n ∈ es.map Node.name, ∃ t : List String, e.2 = p ++ n :: t
  | [] => by simp [preorder]
  | .file name :: rest => by
    intro e he
    simp only [preorder, List.mem_cons] at he
    rcases he with rfl | he
    · exact ⟨name, by simp [Node.name], [], rfl⟩
    · obtain ⟨n, hn, t, ht⟩ := preorder_paths k p rest e he
      exact ⟨n, by simp only [List.map_cons, List.mem_cons]; exact Or.inr hn, t, ht⟩
  | .broken name :: rest => by
    intro e he
    simp only [preorder, List.mem_cons] at he
    rcases he with rfl | he
    · exact ⟨name, by simp [Node.name], [], rfl⟩
    · obtain ⟨n, hn, t, ht⟩ := preorder_paths k p rest e he
      exact ⟨n, by simp only [List.map_cons, List.mem_cons]; exact Or.inr hn, t, ht⟩
  | .dir name d :: rest => by
    intro e he
    simp only [preorder, List.mem_cons, List.mem_append] at he
    rcases he with rfl | he | he
    · exact ⟨name, by simp [Node.name], [], rfl⟩
    · obtain ⟨n, t, ht⟩ := directory_preorder_paths (k + 1) (p ++ [name]) d e he
      exact ⟨name, by simp [Node.name], n :: t, by rw [ht]; simp⟩
    · obtain ⟨n, hn, t, ht⟩ := preorder_paths k p rest e he
      exact ⟨n, by simp only [List.map_cons, List.mem_cons]; exact Or.inr hn, t, ht⟩
theorem directory_preorder_paths (k : Nat) (p : Path) :
    ∀ d : Directory, ∀ e ∈ Directory.preorder k p d,
      ∃ (n : String) (t : List String), e.2 = p ++ n :: t
  | .denied => by simp [Directory.preorder]
  | .listing es => by
    intro e he
    simp only [Directory.preorder] at he
    obtain ⟨n, _, t, ht⟩ := preorder_paths k p es e he
    exact ⟨n, t, ht⟩
  | .interrupted es => by
    intro e he
    simp only [Directory.preorder] at he
    obtain ⟨n, _, t, ht⟩ := preorder_paths k p es e he
    exact ⟨n, t, ht⟩
end

theorem path_not_below (p : Path) (name n : String) (t : List String) :
    p ++ [name] ≠ (p ++ [name]) ++ n :: t := by
  intro h
  have := congrArg List.length h
  simp at this

theorem path_name_eq (p : Path) (a b : String) (s t : List String)
    (h : p ++ a :: s = p ++ b :: t) : a = b := by
  have := List.append_cancel_left h
  simp at this
  exact this.1

theorem path_not_among (k : Nat) (p : Path) (name : String) (rest : List Node)
    (hname : name ∉ rest.map Node.name) :
    p ++ [name] ∉ (preorder k p rest).map Prod.snd := by
  intro hm
  obtain ⟨e, he, hx⟩ := List.mem_map.1 hm
  obtain ⟨n, hn, t, ht⟩ := preorder_paths k p rest e he
  rw [ht] at hx
  have : n = name := path_name_eq p n name t [] (by simpa using hx)
  exact hname (this ▸ hn)

mutual
theorem preorder_nodup (k : Nat) (p : Path) :
    ∀ es : List Node, distinctNames es = true → ((preorder k p es).map Prod.snd).Nodup
  | [] => by simp [preorder]
  | .file name :: rest => by
    intro hd
    simp only [distinctNames, Bool.and_eq_true, decide_eq_true_eq] at hd
    simp only [preorder, List.map_cons, List.nodup_cons]
    exact ⟨path_not_among k p name rest hd.1, preorder_nodup k p rest hd.2⟩
  | .broken name :: rest => by
    intro hd
    simp only [distinctNames, Bool.and_eq_true, decide_eq_true_eq] at hd
    simp only [preorder, List.map_cons, List.nodup_cons]
    exact ⟨path_not_among k p name rest hd.1, preorder_nodup k p rest hd.2⟩
  | .dir name d :: rest => by
    intro hd
    simp only [distinctNames, Bool.and_eq_true, decide_eq_true_eq] at hd
    obtain ⟨⟨hname, hsub⟩, hrest⟩ := hd
    simp only [preorder, List.map_cons, List.map_append, List.nodup_cons, List.mem_append,
      not_or]
    refine ⟨⟨?_, path_not_among k p name rest hname⟩, ?_⟩
    · intro hm
      obtain ⟨e, he, hx⟩ := List.mem_map.1 hm
      obtain ⟨n, t, ht⟩ := directory_preorder_paths (k + 1) (p ++ [name]) d e he
      rw [ht] at hx
      exact path_not_below p name n t hx.symm
    · rw [List.nodup_append]
      refine ⟨directory_preorder_nodup (k + 1) (p ++ [name]) d hsub,
        preorder_nodup k p rest hrest, ?_⟩
      intro x hx1 hx2
      obtain ⟨e1, he1, h1⟩ := List.mem_map.1 hx1
      obtain ⟨e2, he2, h2⟩ := List.mem_map.1 hx2
      obtain ⟨n1, t1, ht1⟩ := directory_preorder_paths (k + 1) (p ++ [name]) d e1 he1
      obtain ⟨n2, hn2, t2, ht2⟩ := preorder_paths k p rest e2 he2
      have : name = n2 := by
        apply path_name_eq p name n2 (n1 :: t1) t2
        rw [← ht2, h2, ← h1, ht1]
        simp
      exact hname (this ▸ hn2)
theorem directory_preorder_nodup (k : Nat) (p : Path) :
    ∀ d : Directory, d.distinctNames = true → ((Directory.preorder k p d).map Prod.snd).Nodup
  | .denied => by simp [Directory.preorder]
  | .listing es => by
    intro hd
    simp only [Directory.distinctNames] at hd
    simp only [Directory.preorder]
    exact preorder_nodup k p es hd
  | .interrupted es => by
    intro hd
    simp only [Directory.distinctNames] at hd
    simp only [Directory.preorder]
    exact preorder_nodup k p es hd
end

theorem walk_of_entry (o : Options) (p : Path) (s : Int) (d : Directory) (i : Nat) (n : Node)
    (h : d.entries.get? i = some n) :
    list_content_unsorted o p d s =
        Event.opendir p :: list_content_unsorted_loop o p d.entries d.complete s ∧
      ∀ n' : Node, list_content_unsorted o p (d.setEntry i n') s =
        Event.opendir p :: list_content_unsorted_loop o p (d.entries.set i n') d.complete s := by
  cases d with
  | denied => simp [Directory.entries] at h
  | listing es =>
    exact ⟨by simp [walk_listing, Directory.entries, Directory.complete],
      fun n' => by simp [walk_listing, Directory.entries, Directory.complete,
        Directory.setEntry]⟩
  | interrupted es =>
    exact ⟨by simp [walk_interrupted, Directory.entries, Directory.complete],
      fun n' => by simp [walk_interrupted, Directory.entries, Directory.complete,
        Directory.setEntry]⟩

theorem loop_set_displays (o : Options) (p : Path) (c : Bool) (s : Int) (name : String)
    (sub sub' : Directory)
    (hsub : displays (list_content_unsorted o (p ++ [name]) sub' (s - 1)) =
      displays (list_content_unsorted o (p ++ [name]) sub (s - 1))) :
    ∀ (es : List Node) (i : Nat), es.get? i = some (.dir name sub) →
      displays (list_content_unsorted_loop o p (es.set i (.dir name sub')) c s) =
        displays (list_content_unsorted_loop o p es c s)
  | [], i, h => by simp at h
  | n :: rest, 0, h => by
    simp only [List.get?_cons_zero, Option.some.injEq] at h
    subst h
    rw [List.set_cons_zero, loop_dir, loop_dir]
    simp only [displays, displays_append]
    by_cases h0 : s ≠ 0
    · rw [if_pos h0, if_pos h0, hsub]
    · rw [if_neg h0, if_neg h0]
  | n :: rest, i + 1, h => by
    simp only [List.get?_cons_succ] at h
    have ih := loop_set_displays o p c s name sub sub' hsub rest i h
    rw [List.set_cons_succ]
    cases n with
    | file nm =>
      rw [loop_file, loop_file]
      simp only [displays, ih]
    | broken nm => rw [loop_broken, loop_broken]
    | dir nm d =>
      rw [loop_dir, loop_dir]
      simp only [displays, displays_append, ih]

theorem loop_set_trace (o : Options) (p : Path) (c : Bool) (s : Int) (name : String)
    (sub sub' : Directory) :
    ∀ (es : List Node) (i : Nat), es.get? i = some (.dir name sub) →
      (es.take i).all (fun n => !n.isBroken) = true →
      ∃ a b : List Event,
        list_content_unsorted_loop o p es c s =
          a ++ Event.display (p ++ [name]) ::
            ((if s ≠ 0 then list_content_unsorted o (p ++ [name]) sub (s - 1) else []) ++ b) ∧
        list_content_unsorted_loop o p (es.set i (.dir name sub')) c s =
          a ++ Event.display (p ++ [name]) ::
            ((if s ≠ 0 then list_content_unsorted o (p ++ [name]) sub' (s - 1) else []) ++ b)
  | [], i, h, _ => by simp at h
  | n :: rest, 0, h, _ => by
    simp only [List.get?_cons_zero, Option.some.injEq] at h
    subst h
    exact ⟨[], list_content_unsorted_loop o p rest c s, by simp [loop_dir], by simp [loop_dir]⟩
  | n :: rest, i + 1, h, hb => by
    simp only [List.get?_cons_succ] at h
    simp only [List.take_succ_cons, List.all_cons, Bool.and_eq_true] at hb
    obtain ⟨a, b, h1, h2⟩ := loop_set_trace o p c s name sub sub' rest i h hb.2
    rw [List.set_cons_succ]
    cases n with
    | file nm =>
      refine ⟨Event.display (p ++ [nm]) :: a, b, ?_, ?_⟩
      · rw [loop_file, h1]; rfl
      · rw [loop_file, h2]; rfl
    | broken nm => simp [Node.isBroken] at hb
    | dir nm d =>
      refine ⟨Event.display (p ++ [nm]) ::
        ((if s ≠ 0 then list_content_unsorted o (p ++ [nm]) d (s - 1) else []) ++ a), b, ?_, ?_⟩
      · rw [loop_dir, h1]; simp
      · rw [loop_dir, h2]; simp

theorem displays_madeEmpty (o : Options) :
    ∀ (pos : List Nat) (d : Directory) (p : Path) (s : Int),
      displays (list_content_unsorted o p (madeEmpty d pos) s) =
        displays (list_content_unsorted o p d s)
  | [], .denied, p, s => by
    simp only [madeEmpty, walk_denied, walk_listing, loop_nil, displays, displays_caught]
  | [], .listing es, p, s => by simp only [madeEmpty]
  | [], .interrupted es, p, s => by simp only [madeEmpty]
  | i :: pos, d, p, s => by
    simp only [madeEmpty]
    cases h : d.entries.get? i with
    | none => rfl
    | some n =>
      cases n with
      | file name => rfl
      | broken name => rfl
      | dir name sub =>
        obtain ⟨e1, e2⟩ := walk_of_entry o p s d i _ h
        simp only [e1, e2, displays]
        exact loop_set_displays o p d.complete s name sub (madeEmpty sub pos)
          (displays_madeEmpty o pos sub (p ++ [name]) (s - 1)) d.entries i h

theorem failure_trace (o : Options) :
    ∀ (pos : List Nat) (i : Nat) (d : Directory) (p : Path) (s : Int) (t : Path),
      deniedAt p d (i :: pos) = some t → (s < 0 ∨ (pos.length : Int) + 1 ≤ s) →
      noFailureBefore d (i :: pos) = true →
      ∃ a b : List Event,
        list_content_unsorted o p (madeEmpty d (i :: pos)) s =
          a ++ [Event.display t, Event.opendir t] ++ b ∧
        list_content_unsorted o p d s =
          a ++ [Event.display t, Event.opendir t] ++ caught o t ++ b
  | pos, i, d, p, s, t, h, hs, hb => by
    simp only [deniedAt] at h
    simp only [noFailureBefore, Bool.and_eq_true] at hb
    simp only [madeEmpty]
    cases hg : d.entries.get? i with
    | none =>
      rw [List.get?_eq_getElem?] at hg
      simp [hg] at h
    | some n =>
      have hg' := hg
      rw [List.get?_eq_getElem?] at hg'
      cases n with
      | file name => simp [hg'] at h
      | broken name => simp [hg'] at h
      | dir name sub =>
        simp [hg'] at h
        simp only [hg] at hb
        obtain ⟨e1, e2⟩ := walk_of_entry o p s d i _ hg
        rw [e1, e2]
        obtain ⟨a, b, h1, h2⟩ :=
          loop_set_trace o p d.complete s name sub (madeEmpty sub pos) d.entries i hg hb.1
        rw [h1, h2]
        cases pos with
        | nil =>
          have h0 : s ≠ 0 := by
            simp only [List.length_nil, Nat.cast_zero, zero_add] at hs
            omega
          cases sub with
          | listing kids => simp [deniedAt] at h
          | interrupted kids => simp [deniedAt] at h
          | denied =>
            simp only [deniedAt, Option.some.injEq] at h
            subst h
            refine ⟨Event.opendir p :: a, b, ?_, ?_⟩
            · simp [madeEmpty, walk_listing, loop_nil, h0]
            · simp [walk_denied, h0]
        | cons j pos =>
          have h0 : s ≠ 0 := by
            simp only [List.length_cons, Nat.cast_add, Nat.cast_one] at hs
            omega
          have hs' : s - 1 < 0 ∨ (pos.length : Int) + 1 ≤ s - 1 := by
            simp only [List.length_cons, Nat.cast_add, Nat.cast_one] at hs
            omega
          obtain ⟨a', b', h1', h2'⟩ :=
            failure_trace o pos j sub (p ++ [name]) (s - 1) t h hs' hb.2
          refine ⟨Event.opendir p :: (a ++ Event.display (p ++ [name]) :: a'), b' ++ b, ?_, ?_⟩
          · rw [if_pos h0, h1']
            simp
          · rw [if_pos h0, h2']
            simp

/-- C5, as stated, fails: on the readable root `loopTree` (`a/`, the self-referencing link
`loop`, the file `z`) with `max_depth = 0` the status query of `loop` throws, the `catch`
block ends the loop over the root, and the immediate entry `z` is never displayed. -/
theorem depth_bound_fails :
    (0 : Int) ≤ 0 ∧ loopTree.readable = true ∧
      list_content_unsorted {} ["r"] loopTree 0 =
        [.opendir ["r"], .display ["r", "a"], .display ["r", "loop"],
          .permission_denied ["r"]] ∧
      ((loopTree.preorder 0 ["r"]).filter (fun e => decide ((e.1 : Int) ≤ 0))).map Prod.snd =
        [["r", "a"], ["r", "loop"], ["r", "z"]] ∧
      displays (list_content_unsorted {} ["r"] loopTree 0) ≠
        ((loopTree.preorder 0 ["r"]).filter (fun e => decide ((e.1 : Int) ≤ 0))).map
          Prod.snd := by
  decide

/-- C5, amended: with `max_depth = s`, `0 ≤ s`, on a root whose directories are all
readable and whose entries all answer the status query, `list_content_unsorted`
displays, in pre-order, exactly the entries at most `s` levels below the root's immediate
entries (level 0); with `max_depth = 0` these are exactly the root's immediate entries,
in enumeration order. -/
theorem depth_bound (o : Options) (p : Path) (d : Directory) (s : Int) (hs : 0 ≤ s)
    (hr : d.readable = true) (ha : d.answers = true) :
    displays (list_content_unsorted o p d s) =
        ((d.preorder 0 p).filter (fun e => decide ((e.1 : Int) ≤ s))).map Prod.snd ∧
      (∀ es : List Node, d = .listing es →
        displays (list_content_unsorted o p d 0) = es.map (fun n => p ++ [n.name])) := by
  constructor
  · have := displays_bounded o 0 p s hs d hr ha
    simpa using this
  · intro es hd
    subst hd
    rw [walk_listing]
    simp only [displays]
    exact displays_depth_zero o p true es (by simpa [Directory.answers] using ha)

theorem depth_bound_witness :
    (0 : Int) ≤ 1 ∧ sampleTree.readable = true ∧ sampleTree.answers = true ∧
      displays (list_content_unsorted {} ["r"] sampleTree 1) =
        [["r", "a"], ["r", "a", "x"], ["r", "a", "b"], ["r", "c"]] ∧
      displays (list_content_unsorted {} ["r"] sampleTree 0) = [["r", "a"], ["r", "c"]] :=
  ⟨by decide, by decide, by decide,
    (depth_bound {} ["r"] sampleTree 1 (by decide) (by decide) (by decide)).1.trans
      (by decide),
    ((depth_bound {} ["r"] sampleTree 1 (by decide) (by decide) (by decide)).2 _ rfl).trans
      (by decide)⟩

/-- C6, as stated, fails: on the readable finite root `loopTree` with `max_depth = -1`
the status query of `loop` throws, the `catch` block ends the loop over the root, and
the entry `z` below the root is never displayed. -/
theorem unbounded_preorder_fails :
    (-1 : Int) < 0 ∧ loopTree.readable = true ∧
      list_content_unsorted {} ["r"] loopTree (-1) =
        [.opendir ["r"], .display ["r", "a"], .opendir ["r", "a"], .display ["r", "a", "x"],
          .display ["r", "loop"], .permission_denied ["r"]] ∧
      ["r", "z"] ∈ (loopTree.preorder 0 ["r"]).map Prod.snd ∧
      ["r", "z"] ∉ displays (list_content_unsorted {} ["r"] loopTree (-1)) := by
  decide

/-- C6, amended: with a negative `max_depth` on a finite tree whose directories are all
readable and whose entries all answer the status query, `list_content_unsorted` (a total
function: the walk ends) displays the entries below the root in depth-first pre-order of
the enumeration order: an entry, then everything below it, then its next sibling. Every
entry is displayed once: there are as many lines as entries, and no path is displayed
twice when the names in each directory are distinct. -/
theorem unbounded_preorder (o : Options) (p : Path) (d : Directory) (s : Int) (hs : s < 0)
    (hr : d.readable = true) (ha : d.answers = true) :
    displays (list_content_unsorted o p d s) = (d.preorder 0 p).map Prod.snd ∧
      (displays (list_content_unsorted o p d s)).length = d.count ∧
      (d.distinctNames = true → (displays (list_content_unsorted o p d s)).Nodup) := by
  have h := displays_unbounded o 0 p s hs d hr ha
  refine ⟨h, ?_, ?_⟩
  · rw [h, List.length_map, length_directory_preorder]
  · intro hd
    rw [h]
    exact directory_preorder_nodup 0 p d hd

theorem unbounded_preorder_witness :
    (-1 : Int) < 0 ∧ sampleTree.readable = true ∧ sampleTree.answers = true ∧
      displays (list_content_unsorted {} ["r"] sampleTree (-1)) =
        [["r", "a"], ["r", "a", "x"], ["r", "a", "b"], ["r", "a", "b", "y"], ["r", "c"]] ∧
      (displays (list_content_unsorted {} ["r"] sampleTree (-1))).length = 5 :=
  ⟨by decide, by decide, by decide,
    (unbounded_preorder {} ["r"] sampleTree (-1) (by decide) (by decide) (by decide)).1.trans
      (by decide),
    (unbounded_preorder {} ["r"] sampleTree (-1) (by decide) (by decide)
      (by decide)).2.1.trans (by decide)⟩

/-- The path through `main` that reaches the walk: no `--help`, no `--sort`, a format
that compiles and a root that is a directory. The exit status is 0 and the events are
those of `list_content_unsorted` at `max_depth`. -/
theorem main_walk (cl : CommandLine) (fs : Path → FileStatus) (p : Path) (d : Directory)
    (hh : cl.help = false) (hsort : cl.sort = none)
    (hf : ∃ o' : Options, read_format (notify cl) = .ok o') (hfile : cl.file = some p)
    (hfs : fs p = .directory d) :
    main cl fs =
      (0, list_content_unsorted { quiet := cl.quiet } p d (cl.max_depth.getD (-1))) := by
  obtain ⟨o', hf⟩ := hf
  rw [read_format_eq] at hf
  have hc : truncated (notify cl).format.data = false ∧
      ∀ c ∈ directiveCodes (notify cl).format.data, c ∈ accepted := by
    by_contra hc
    rw [if_neg hc] at hf
    cases hf
  unfold main
  simp only [hh, hsort, Option.isSome_none, Bool.false_eq_true, if_false]
  generalize ho : (if cl.quiet = true then { notify cl with quiet := true } else notify cl) = o
  have hq : o.quiet = cl.quiet := by
    subst ho
    cases hqq : cl.quiet <;> simp [notify]
  have hs : o.sort.data = [] := by
    subst ho
    split <;> simp [notify, hsort]
  have hfm : o.format = (notify cl).format := by
    subst ho
    split <;> rfl
  have hm : o.max_depth = cl.max_depth.getD (-1) := by
    subst ho
    split <;> rfl
  have hsortok : ∀ c ∈ o.sort.data, c ∈ accepted := by
    rw [hs]
    intro c hcm
    cases hcm
  simp only [read_sort_eq, if_pos hsortok, read_format_eq, hfm, if_pos hc, hfile, hfs, hm]
  congr 1
  exact list_content_unsorted_congr _ { quiet := cl.quiet } (by simpa using hq) p _ d

theorem caught_eq (o : Options) (p : Path) :
    caught o p = if o.quiet = true then [] else [Event.permission_denied p] := by
  cases h : o.quiet <;> simp [caught, h]

/-- C7, as stated, fails. With `max_depth = 0` the unreadable subdirectory `locked/` of
the root is displayed but never opened, and no diagnostic is written although `quiet` is
false; with `max_depth = 0` the unreadable `a/locked/` of `lockedTree` is not displayed;
and when the self-referencing link `loop` is enumerated before `locked/`, the loop over
the root ends at `loop`: `locked/` is neither displayed nor opened and the one
diagnostic names the root. -/
theorem open_failure_isolated_fails :
    (deniedAt ["r"] (.listing [.dir "locked" .denied, .file "c"]) [0] =
        some ["r", "locked"] ∧
      ({} : Options).quiet = false ∧
      list_content_unsorted {} ["r"] (.listing [.dir "locked" .denied, .file "c"]) 0 =
        [.opendir ["r"], .display ["r", "locked"], .display ["r", "c"]]) ∧
    (deniedAt ["r"] lockedTree [0, 1] = some ["r", "a", "locked"] ∧
      ["r", "a", "locked"] ∉ displays (list_content_unsorted {} ["r"] lockedTree 0)) ∧
    (deniedAt ["r"] (.listing [.broken "loop", .dir "locked" .denied]) [1] =
        some ["r", "locked"] ∧
      list_content_unsorted {} ["r"] (.listing [.broken "loop", .dir "locked" .denied]) (-1) =
        [.opendir ["r"], .display ["r", "loop"], .permission_denied ["r"]]) := by
  decide

/-- C7, amended: a directory that cannot be opened costs only its own contents. For a
root `d` with an unreadable subdirectory at position `i :: pos`, of path `t`: the walk
displays the same entries in the same order as on the tree where that subdirectory is
empty; when the walk comes to it (the depth bound allows it, and in no directory on the
way does an entry enumerated earlier fail its status query), the two traces are the same
up to and including the display of `t` and the attempt to open it, then comes the
`permission denied` line for `t` when `quiet` is false and nothing when it is true, and
the rest is the same again; with `quiet` set no such line is written at all; and `main`
run on that root returns exit status 0 after the walk. -/
theorem open_failure_isolated (o : Options) (p : Path) (d : Directory) (s : Int) (i : Nat)
    (pos : List Nat) (t : Path) (h : deniedAt p d (i :: pos) = some t) :
    displays (list_content_unsorted o p d s) =
        displays (list_content_unsorted o p (madeEmpty d (i :: pos)) s) ∧
      ((s < 0 ∨ (pos.length : Int) + 1 ≤ s) → noFailureBefore d (i :: pos) = true →
        ∃ a b : List Event,
          list_content_unsorted o p (madeEmpty d (i :: pos)) s =
            a ++ [Event.display t, Event.opendir t] ++ b ∧
          list_content_unsorted o p d s =
            a ++ [Event.display t, Event.opendir t] ++
              (if o.quiet = true then [] else [Event.permission_denied t]) ++ b) ∧
      (o.quiet = true → ∀ x : Path, Event.permission_denied x ∉ list_content_unsorted o p d s) ∧
      (∀ (cl : CommandLine) (fs : Path → FileStatus), cl.help = false → cl.sort = none →
        (∃ o' : Options, read_format (notify cl) = .ok o') → cl.file = some p →
        fs p = .directory d → cl.quiet = o.quiet →
        main cl fs = (0, list_content_unsorted o p d (cl.max_depth.getD (-1)))) := by
  refine ⟨(displays_madeEmpty o (i :: pos) d p s).symm, ?_,
    fun hq x => quiet_no_diagnostic o hq p s x d, ?_⟩
  · intro hs hb
    rw [← caught_eq]
    exact failure_trace o pos i d p s t h hs hb
  · intro cl fs hh hsort hf hfile hfs hq
    rw [main_walk cl fs p d hh hsort hf hfile hfs]
    congr 1
    exact list_content_unsorted_congr { quiet := cl.quiet } o hq p _ d

theorem open_failure_isolated_witness :
    deniedAt ["r"] lockedTree [0, 1] = some ["r", "a", "locked"] ∧
      displays (list_content_unsorted {} ["r"] lockedTree (-1)) =
        [["r", "a"], ["r", "a", "x"], ["r", "a", "locked"], ["r", "a", "y"], ["r", "c"]] ∧
      (((-1 : Int) < 0 ∨ (([1] : List Nat).length : Int) + 1 ≤ -1) ∧
        noFailureBefore lockedTree [0, 1] = true ∧
        ∃ a b : List Event,
          list_content_unsorted {} ["r"] (madeEmpty lockedTree [0, 1]) (-1) =
            a ++ [Event.display ["r", "a", "locked"], Event.opendir ["r", "a", "locked"]] ++
              b ∧
          list_content_unsorted {} ["r"] lockedTree (-1) =
            a ++ [Event.display ["r", "a", "locked"], Event.opendir ["r", "a", "locked"]] ++
              (if ({} : Options).quiet = true then []
                else [Event.permission_denied ["r", "a", "locked"]]) ++ b) ∧
      list_content_unsorted {} ["r"] lockedTree (-1) =
        [.opendir ["r"], .display ["r", "a"], .opendir ["r", "a"], .display ["r", "a", "x"],
          .display ["r", "a", "locked"], .opendir ["r", "a", "locked"],
          .permission_denied ["r", "a", "locked"], .display ["r", "a", "y"],
          .display ["r", "c"]] ∧
      main { format := some "%n", file := some ["r"] } (fun _ => .directory lockedTree) =
        (0, list_content_unsorted {} ["r"] lockedTree (-1)) :=
  ⟨by decide,
    (open_failure_isolated {} ["r"] lockedTree (-1) 0 [1] ["r", "a", "locked"]
      (by decide)).1.trans (by decide),
    ⟨by decide, by decide,
      (open_failure_isolated {} ["r"] lockedTree (-1) 0 [1] ["r", "a", "locked"]
        (by decide)).2.1 (by decide) (by decide)⟩,
    by decide,
    (open_failure_isolated {} ["r"] lockedTree (-1) 0 [1] ["r", "a", "locked"]
      (by decide)).2.2.2 { format := some "%n", file := some ["r"] }
      (fun _ => .directory lockedTree) rfl rfl ⟨_, rfl⟩ rfl rfl rfl⟩

/-- C10 (the code departs from it): `options.exclude` is stored and never read. The
events of the walk are the same for every value of it, and with `-x root/sub` the
directory `root/sub` is still displayed and opened and its content displayed. -/
theorem exclude_not_consulted :
    (∀ (o : Options) (x : String) (p : Path) (d : Directory) (s : Int),
      list_content_unsorted { o with exclude := x } p d s = list_content_unsorted o p d s) ∧
    main { exclude := some "root/sub", format := some "%n", file := some ["root"] }
        (fun _ => .directory (.listing [.dir "sub" (.listing [.file "f"]), .file "g"])) =
      (0, [.opendir ["root"], .display ["root", "sub"], .opendir ["root", "sub"],
        .display ["root", "sub", "f"], .display ["root", "g"]]) :=
  ⟨fun o x p d s => list_content_unsorted_congr { o with exclude := x } o rfl p s d,
    by decide⟩

end Fls
